import Mathlib

/-!
Verification of the animated-llm trace engine against its specification.

The development shallowly embeds the three relevant source components:

* `scripts/data-generation/llm_inference_server.py` (`generate`): the
  autoregressive inference trace recorder — base-distribution extraction,
  top-k selection, greedy/temperature sampling, display-stream assembly,
  chat-template boundary resolution, and the EOS-bounded generation loop.
* `scripts/data-generation/llm_training_server.py` (`process_training`):
  the teacher-forced training trace recorder.
* `scripts/data-generation/llm_inference_client.py`
  (`create_visualization_json`): the post-trace newline filter.

Real-valued numerics (softmax, log-softmax, cross-entropy) are embedded
over `ℝ`; Python's `round(x, 4)` (round-half-to-even) is embedded as
`round4`.  The external model and tokenizer are abstract parameters
(functions producing logit vectors and decoded strings), exactly as the
spec treats them (collaborators supplying `logits_for`, `decode`, ...).
`torch.multinomial` is modelled by an oracle draw constrained to the
support of the categorical distribution it is given (any in-range index),
and `torch.topk`'s unspecified tie-break is fixed to the deterministic
index-ascending order, which the spec explicitly allows.
-/

namespace ALLM

/-! ## Rounding: Python's `round(x, 4)` (round-half-to-even) -/

/-- Round-half-to-even on reals, the rounding used by Python's built-in
`round`: ties (fractional part exactly 1/2) go to the even integer,
everything else to the nearest integer. -/
noncomputable def roundHE (x : ℝ) : ℤ :=
  if Int.fract x = 1 / 2 then (if Even ⌊x⌋ then ⌊x⌋ else ⌊x⌋ + 1) else round x

/-- Python's `round(x, 4)`: round to 4 decimal digits, ties to even. -/
noncomputable def round4 (x : ℝ) : ℝ :=
  (roundHE (x * 10000) : ℝ) / 10000

/-! ## Softmax and log-softmax (`torch.softmax` / `torch.log_softmax`)

A logit vector is a `List ℝ` of length `vocab_size`.  `softmaxVal` is the
probability assigned to one logit value; `softmaxList` is the full
probability vector (`torch.softmax(logits, dim=-1)`). -/

noncomputable def softmaxVal (logits : List ℝ) (x : ℝ) : ℝ :=
  Real.exp x / (logits.map Real.exp).sum

/-- `torch.softmax(logits, dim=-1)` as a vector. -/
noncomputable def softmaxList (logits : List ℝ) : List ℝ :=
  logits.map (softmaxVal logits)

/-- Probability the softmax of `logits` assigns to vocabulary entry `i`
(`base_probs[0][i]` in the source). -/
noncomputable def probAt (logits : List ℝ) (i : ℕ) : ℝ :=
  softmaxVal logits (logits.getD i 0)

/-- `torch.log_softmax(logits, dim=-1)[i]`: equals
`logits[i] - log (Σ_j exp logits[j])`. -/
noncomputable def logProbAt (logits : List ℝ) (i : ℕ) : ℝ :=
  logits.getD i 0 - Real.log ((logits.map Real.exp).sum)

/-! ## `torch.topk` on the base probability vector

`torch.topk(v, k)` returns the `k` largest entries of `v` in descending
order together with their indices.  The tie-break between equal values is
implementation-defined in torch; the embedding fixes it to ascending
index, a deterministic consistent choice. -/

/-- Index order used to sort the vocabulary by descending probability:
`i` comes before `j` iff `p[i] > p[j]`, ties broken by ascending index. -/
def topOrd (p : List ℝ) (i j : ℕ) : Prop :=
  p.getD j 0 < p.getD i 0 ∨ (p.getD i 0 = p.getD j 0 ∧ i ≤ j)

noncomputable instance topOrdDecidable (p : List ℝ) : DecidableRel (topOrd p) :=
  fun _ _ => by unfold topOrd; infer_instance

instance topOrdTrans (p : List ℝ) : IsTrans ℕ (topOrd p) := by
  constructor
  intro a b c hab hbc
  rcases hab with h1 | ⟨h1, h1'⟩ <;> rcases hbc with h2 | ⟨h2, h2'⟩
  · exact Or.inl (h2.trans h1)
  · exact Or.inl (h2 ▸ h1)
  · exact Or.inl (h1 ▸ h2)
  · exact Or.inr ⟨h1.trans h2, h1'.trans h2'⟩

instance topOrdTotal (p : List ℝ) : IsTotal ℕ (topOrd p) := by
  constructor
  intro a b
  rcases lt_trichotomy (p.getD a 0) (p.getD b 0) with h | h | h
  · exact Or.inr (Or.inl h)
  · rcases Nat.le_total a b with hab | hab
    · exact Or.inl (Or.inr ⟨h, hab⟩)
    · exact Or.inr (Or.inr ⟨h.symm, hab⟩)
  · exact Or.inl (Or.inl h)

/-- `torch.topk(p, k).indices`: the indices of the `k` largest entries of
`p`, in descending-value order (ties by ascending index). -/
noncomputable def topIdx (p : List ℝ) (k : ℕ) : List ℕ :=
  (List.insertionSort (topOrd p) (List.range p.length)).take k

/-! ## Inference step records (`llm_inference_server.py`, `generate`) -/

/-- One entry of `output_distribution.candidates` (source lines 437-450). -/
structure Candidate where
  token : String
  token_id : ℕ
  logprob : ℝ
  prob : ℝ

noncomputable instance : Inhabited Candidate := ⟨⟨"", 0, 0, 0⟩⟩

/-- The `output_distribution` dict of a generation step. -/
structure Distribution where
  top_k : ℕ
  candidates : List Candidate

/-- The `selected_token` dict of a generation step. -/
structure SelectedTok where
  token : String
  token_id : ℕ
  selection_method : String

/-- One element of `generation_steps` (source lines 453-467). -/
structure GenStep where
  step : ℕ
  input_text : String
  tokens : List String
  token_ids : List ℕ
  output_distribution : Distribution
  selected_token : SelectedTok

/-- Source lines 371-385 and 436-450: the candidate list is built from the
temperature-free base probabilities.  `k` is the number of entries kept
(`min(request.top_k, vocab)` at the inference call site; the fixed `10` at
the training call site).  Serialized `prob`/`logprob` are
`round(..., 4)` of softmax / log-softmax of the raw logits. -/
noncomputable def mkCandidates (decode : ℕ → String) (logits : List ℝ) (k : ℕ) :
    List Candidate :=
  (topIdx (softmaxList logits) k).map (fun i =>
    { token := decode i
      token_id := i
      logprob := round4 (logProbAt logits i)
      prob := round4 (probAt logits i) })

/-- Source lines 371-385, 436-450, 458-461: the recorded
`output_distribution` — requested `top_k` plus the candidates drawn from
the base (temperature-free) distribution, with `k = min(top_k, vocab)`. -/
noncomputable def output_distribution_of (decode : ℕ → String) (logits : List ℝ)
    (Kreq : ℕ) : Distribution :=
  { top_k := Kreq
    candidates := mkCandidates decode logits (min Kreq logits.length) }

/-- Oracle model of `torch.multinomial(probs, num_samples=1).item()`: the
draw is some index into `probs` (every index has positive softmax
probability, so any in-range index is a possible outcome).  The oracle
value `r` picks which one. -/
def multinomialIdx (probs : List ℝ) (r : ℕ) : ℕ :=
  r % probs.length

/-- Source lines 394-396: `sampling_probs = softmax(top_k_logits / τ)` —
the fresh temperature-scaled categorical distribution over the top-K raw
logits (never a renormalization of the rounded base probabilities). -/
noncomputable def sampling_probs_of (logits : List ℝ) (Kreq : ℕ) (t : ℝ) :
    List ℝ :=
  softmaxList ((topIdx (softmaxList logits) (min Kreq logits.length)).map
    (fun i => logits.getD i 0 / t))

/-- Source lines 387-401: token selection.  `τ = none` models
`request.temperature is None`.  Greedy takes `top_k_indices[0]`; sampling
draws from `sampling_probs` and maps the drawn position back through
`top_k_indices`. -/
noncomputable def selectTok (logits : List ℝ) (Kreq : ℕ) (τ : Option ℝ) (r : ℕ) :
    ℕ × String :=
  let tki := topIdx (softmaxList logits) (min Kreq logits.length)
  match τ with
  | none => (tki.getD 0 0, "greedy")
  | some t =>
    if t ≤ 0 then (tki.getD 0 0, "greedy")
    else (tki.getD (multinomialIdx (sampling_probs_of logits Kreq t) r) 0,
          "sampling")

/-- Source lines 366-467: the step record produced by one iteration of the
generation loop, given the logits for the current context, the request
parameters, the multinomial oracle value `r`, and the already-assembled
display view (`input_text`, `tokens`, `token_ids`). -/
noncomputable def genStepRecord (decode : ℕ → String) (logits : List ℝ)
    (Kreq : ℕ) (τ : Option ℝ) (r : ℕ) (stepNo : ℕ) (dispText : String)
    (dispToks : List String) (dispIds : List ℕ) : GenStep :=
  { step := stepNo
    input_text := dispText
    tokens := dispToks
    token_ids := dispIds
    output_distribution := output_distribution_of decode logits Kreq
    selected_token :=
      { token := decode (selectTok logits Kreq τ r).1
        token_id := (selectTok logits Kreq τ r).1
        selection_method := (selectTok logits Kreq τ r).2 } }

/-! ## The generation loop (`generate`, source lines 301-496)

The model/tokenizer collaborator is abstracted as functions: `modelLogits`
returns the last-position logit vector for a context (`model(current_ids)
.logits[:, -1, :]`), `decode` is `get_display_tokens` applied to a single
id, `decodeSeq` is `tokenizer.decode(..., skip_special_tokens=False)`,
and `eosId` is `tokenizer.eos_token_id`. -/

structure GenEnv where
  modelLogits : List ℕ → List ℝ
  decode : ℕ → String
  decodeSeq : List ℕ → String
  eosId : ℕ

/-- Source lines 405-434: the display view for one step.  In chat mode the
prompt tokens from the boundary onward (`input_ids[user_message_start_idx:]`)
are followed by the generated stream so far; otherwise the whole current
context is shown. -/
noncomputable def displayView (env : GenEnv) (chatMode : Bool)
    (inputIds : List ℕ) (bIdx : ℕ) (cur gen : List ℕ) :
    String × List String × List ℕ :=
  if chatMode then
    let pids := inputIds.drop bIdx
    (env.decodeSeq (pids ++ gen), pids.map env.decode ++ gen.map env.decode,
     pids ++ gen)
  else
    (env.decodeSeq cur, cur.map env.decode, cur)

/-- The record produced by one iteration of the generation loop: the
model is run on the current context (`outputs = model(current_ids)`,
`logits = outputs.logits[:, -1, :]`), the display view is assembled, and
the step record is built. -/
noncomputable def genLoopStep (env : GenEnv) (Kreq : ℕ) (τ : Option ℝ)
    (rand : ℕ → ℕ) (chatMode : Bool) (inputIds : List ℕ) (bIdx : ℕ)
    (stepNo : ℕ) (cur gen : List ℕ) : GenStep :=
  genStepRecord env.decode (env.modelLogits cur) Kreq τ (rand stepNo) stepNo
    (displayView env chatMode inputIds bIdx cur gen).1
    (displayView env chatMode inputIds bIdx cur gen).2.1
    (displayView env chatMode inputIds bIdx cur gen).2.2

/-- Source lines 366-487: the `for step in range(max_new_tokens)` loop.
Each iteration records one step; the selected token is appended to the
generated stream and the model context after the record is taken, and the
loop breaks right after recording a step whose selection is the EOS id.
`fuel` is the remaining iteration budget, `stepNo` the current step index,
`cur` the model context (`current_ids`), `gen` the generated ids. -/
noncomputable def genLoopAux (env : GenEnv) (Kreq : ℕ) (τ : Option ℝ)
    (rand : ℕ → ℕ) (chatMode : Bool) (inputIds : List ℕ) (bIdx : ℕ) :
    ℕ → ℕ → List ℕ → List ℕ → List GenStep
  | 0, _, _, _ => []
  | fuel + 1, stepNo, cur, gen =>
    if (genLoopStep env Kreq τ rand chatMode inputIds bIdx stepNo cur
        gen).selected_token.token_id = env.eosId then
      [genLoopStep env Kreq τ rand chatMode inputIds bIdx stepNo cur gen]
    else
      genLoopStep env Kreq τ rand chatMode inputIds bIdx stepNo cur gen ::
        genLoopAux env Kreq τ rand chatMode inputIds bIdx fuel (stepNo + 1)
          (cur ++ [(genLoopStep env Kreq τ rand chatMode inputIds bIdx stepNo
            cur gen).selected_token.token_id])
          (gen ++ [(genLoopStep env Kreq τ rand chatMode inputIds bIdx stepNo
            cur gen).selected_token.token_id])

/-- The full `generation_steps` list produced by `generate` for a request
with `max_new_tokens = maxNew`, starting from the encoded input ids. -/
noncomputable def generate (env : GenEnv) (Kreq : ℕ) (τ : Option ℝ)
    (rand : ℕ → ℕ) (chatMode : Bool) (inputIds : List ℕ) (bIdx : ℕ)
    (maxNew : ℕ) : List GenStep :=
  genLoopAux env Kreq τ rand chatMode inputIds bIdx maxNew 0 inputIds []

/-! ## Training trace recorder (`llm_training_server.py`, `process_training`) -/

/-- One element of `training_steps` (source lines 354-370).
`target_token_prediction` repeats `target_token`/`target_prob`/
`target_logprob` and is omitted from the embedding. -/
structure TrainStep where
  step : ℕ
  input_tokens : List String
  input_token_ids : List ℕ
  target_token : String
  target_token_id : ℕ
  predictions : List Candidate
  target_prob : ℝ
  target_logprob : ℝ
  loss : ℝ

noncomputable instance : Inhabited TrainStep :=
  ⟨⟨0, [], [], "", 0, [], 0, 0, 0⟩⟩

/-- `F.cross_entropy(step_logits.unsqueeze(0), [target]).item()` for a
single label: by torch's definition this is `-log(softmax(logits)[target])`. -/
noncomputable def crossEntropy (logits : List ℝ) (t : ℕ) : ℝ :=
  -(Real.log (probAt logits t))

/-- Source lines 278-280: truncate the token list when `max_tokens` is set
and the text is longer. -/
def pyTrunc (ids : List ℕ) (maxT : Option ℕ) : List ℕ :=
  match maxT with
  | none => ids
  | some m => if m < ids.length then ids.take m else ids

/-- Source lines 296-370: the training step for position `step`, given the
logit vector the code selects for this position (`logits[step-1]`, or
`logits[0]` at position 0).  `predictions` uses the fixed `top_k = 10`
(line 319; `torch.topk(probs, k=10)` presumes `vocab ≥ 10` in the source,
the embedding keeps `min 10 vocab` entries). -/
noncomputable def mkTrainStep (decode : ℕ → String) (stepLogits : List ℝ)
    (step : ℕ) (tokenIds : List ℕ) (tokens : List String) : TrainStep :=
  let t := tokenIds.getD step 0
  { step := step
    input_tokens := if 0 < step then tokens.take step else []
    input_token_ids := if 0 < step then tokenIds.take step else []
    target_token := tokens.getD step ""
    target_token_id := t
    predictions := mkCandidates decode stepLogits 10
    target_prob := round4 (probAt stepLogits t)
    target_logprob := round4 (logProbAt stepLogits t)
    loss := round4 (crossEntropy stepLogits t) }

/-- Source lines 256-381 (`process_training`): one forward pass over the
(possibly truncated) token sequence, then one step per position `0..N-1`.
`modelT ids p` is `model(ids).logits[0][p]`, the model's output logit
vector at sequence position `p`. -/
noncomputable def process_training (modelT : List ℕ → ℕ → List ℝ)
    (decode : ℕ → String) (ids0 : List ℕ) (maxT : Option ℕ) :
    List TrainStep :=
  let tokenIds := pyTrunc ids0 maxT
  let tokens := tokenIds.map decode
  (List.range tokenIds.length).map (fun step =>
    mkTrainStep decode
      (if 0 < step then modelT tokenIds (step - 1) else modelT tokenIds 0)
      step tokenIds tokens)

/-! ## Post-trace filter (`llm_inference_client.py`, lines 105-162)

The client receives the trace as JSON; numbers inside it are plain
decimals, modelled as `ℚ`.  Steps are the `generation_steps` dicts;
`embeddings` is an optional dict whose values are arrays (filtered) or
other values (kept as-is).  A `none` result models a raised
`IndexError` (`token_ids[i]` with `i` out of range). -/

/-- A candidate as it appears in the client-side JSON. -/
structure CandJson where
  token : String
  token_id : ℕ
  logprob : ℚ
  prob : ℚ
deriving DecidableEq

/-- `output_distribution` as carried (untouched) by the client. -/
structure DistJson where
  top_k : ℕ
  candidates : List CandJson
deriving DecidableEq

/-- `selected_token` as carried by the client. -/
structure SelJson where
  token : String
  token_id : ℕ
  selection_method : String
deriving DecidableEq

/-- A value of the optional per-step `embeddings` dict: either an array
(filtered positionally) or any other JSON value (kept as-is). -/
inductive EmbEntry where
  | arr (xs : List ℚ)
  | other (s : String)
deriving DecidableEq

/-- A generation step as seen by the client (`generation_steps[i]`). -/
structure VisStep where
  step : ℕ
  input_text : String
  tokens : List String
  token_ids : List ℕ
  output_distribution : DistJson
  selected_token : SelJson
  embeddings : Option (List (String × EmbEntry))
deriving DecidableEq

instance : Inhabited VisStep :=
  ⟨⟨0, "", [], [], ⟨0, []⟩, ⟨"", 0, ""⟩, none⟩⟩

/-- `_is_newline_token` (lines 106-110): any token containing a newline or
carriage-return character. -/
def is_newline_token (tok : String) : Bool :=
  tok.data.contains '\n' || tok.data.contains '\r'

/-- `_strip_newlines` (lines 112-115):
`text.replace("\r", "").replace("\n", "")`, i.e. delete every CR and LF. -/
def strip_newlines (text : String) : String :=
  String.mk (text.data.filter (fun c => !(c == '\r') && !(c == '\n')))

/-- `keep_idx` (line 126): `[i for i, t in enumerate(tokens) if not
_is_newline_token(t)]`. -/
def keep_idx (tokens : List String) : List ℕ :=
  (List.range tokens.length).filter (fun i => !is_newline_token (tokens.getD i ""))

/-- The Python list comprehension `[xs[i] for i in idx]`: `none` models the
`IndexError` raised when some `i` is out of range. -/
def pySelect (xs : List ℕ) : List ℕ → Option (List ℕ)
  | [] => some []
  | i :: is =>
    match xs[i]?, pySelect xs is with
    | some x, some rest => some (x :: rest)
    | _, _ => none

/-- Line 137: `[arr[i] for i in keep_idx if i < len(arr)]` — the guard
makes every access in range, so this is `filterMap` over the lookups. -/
def filterEmbEntry (keep : List ℕ) : EmbEntry → EmbEntry
  | .arr xs => .arr (keep.filterMap (fun i => xs[i]?))
  | .other s => .other s

/-- The successful body of `_filter_step` for a step that is kept (lines
124-152): filter `tokens` and `token_ids` by the shared `keep_idx`, filter
embedding arrays, strip newlines from `input_text`; every access
`tokens[i]` with `i ∈ keep_idx` is in range, so it is a `filterMap`. -/
def filter_kept (s : VisStep) : Option VisStep :=
  let keep := keep_idx s.tokens
  match (if s.token_ids.isEmpty then some s.token_ids
         else pySelect s.token_ids keep) with
  | none => none
  | some fids =>
    some { s with
      tokens := keep.filterMap (fun i => s.tokens[i]?)
      token_ids := fids
      input_text := strip_newlines s.input_text
      embeddings := s.embeddings.map (fun d =>
        d.map (fun p => (p.1, filterEmbEntry keep p.2))) }

/-- `_filter_step` (lines 117-152): `some none` = the step is dropped
(selected token is a newline token), `some (some s')` = the step is kept
with filtered fields, `none` = an `IndexError` escaped. -/
def filter_step (s : VisStep) : Option (Option VisStep) :=
  if is_newline_token s.selected_token.token then some none
  else (filter_kept s).map some

/-- Lines 154-158: run `_filter_step` over all steps in order, collecting
the per-step outcomes; an exception aborts the whole pass. -/
def traverseSteps : List VisStep → Option (List (Option VisStep))
  | [] => some []
  | s :: rest =>
    match filter_step s, traverseSteps rest with
    | some o, some os => some (o :: os)
    | _, _ => none

/-- Lines 160-162: `for idx, s in enumerate(filtered_steps): s["step"] = idx`. -/
def renumberFrom : ℕ → List VisStep → List VisStep
  | _, [] => []
  | i, s :: rest => { s with step := i } :: renumberFrom (i + 1) rest

/-- The whole post-trace filter pass of `create_visualization_json` (lines
105-162): drop/filter each step, keep the survivors in order, renumber
them contiguously from 0.  `none` models a raised exception. -/
def filter_trace (steps : List VisStep) : Option (List VisStep) :=
  (traverseSteps steps).map (fun os => renumberFrom 0 (os.filterMap id))

/-- Spec-side description of the steps that survive the filter: exactly
those whose selected token does not contain a line break, in order.  Used
to state which input step each output step corresponds to. -/
def kept_steps (steps : List VisStep) : List VisStep :=
  steps.filter (fun s => !is_newline_token s.selected_token.token)

/-- Concrete fixture: a step whose selected token is a newline token. -/
def demoNL : VisStep :=
  { step := 0
    input_text := "a\nb"
    tokens := ["a", "\n"]
    token_ids := [1, 2]
    output_distribution := ⟨5, [⟨"a", 1, -2, 1⟩]⟩
    selected_token := ⟨"\n", 9, "sampling"⟩
    embeddings := none }

/-- Concrete fixture: a step whose selected token is ordinary. -/
def demoOK : VisStep :=
  { step := 1
    input_text := "a\nb"
    tokens := ["a", "\n", "b"]
    token_ids := [1, 2, 3]
    output_distribution := ⟨5, []⟩
    selected_token := ⟨"b", 3, "greedy"⟩
    embeddings := some [("h", EmbEntry.arr [1, 2, 3]),
                        ("m", EmbEntry.other "x")] }

/-- The filtered form of `demoOK` (computed by hand for the witnesses). -/
def demoOKFiltered : VisStep :=
  { step := 0
    input_text := "ab"
    tokens := ["a", "b"]
    token_ids := [1, 3]
    output_distribution := ⟨5, []⟩
    selected_token := ⟨"b", 3, "greedy"⟩
    embeddings := some [("h", EmbEntry.arr [1, 3]),
                        ("m", EmbEntry.other "x")] }

/-! ## Boundary resolver (`generate`, source lines 311-348) -/

/-- `text.find(pat)` on Python strings (code-point indices): the smallest
`i` with `pat` occurring at `i`, or `none` (Python's `-1`). -/
def pyFind (s pat : List Char) : Option ℕ :=
  (List.range (s.length + 1)).find? (fun i => pat.isPrefixOf (s.drop i))

/-- Lines 331-334: the known user-turn markers, in priority order. -/
def possibleHeaders : List (List Char) :=
  ["<|start_header_id|>user<|end_header_id|>".data, "<|im_start|>user".data]

/-- Lines 329-342: the resolved character offset of the user turn in the
without-generation-prompt rendering — the first marker that occurs wins,
otherwise the position of the raw prompt text, otherwise `none` (`-1`). -/
def headerStartPos (textWA prompt : List Char) : Option ℕ :=
  match possibleHeaders.findSome? (fun pat => pyFind textWA pat) with
  | some i => some i
  | none => pyFind textWA prompt

/-- Lines 311, 343-348: the token-count boundary
(`user_message_start_idx`).  It stays `0` unless a positive character
offset was resolved, in which case the prefix up to the offset is
tokenized (by the abstract tokenizer `tokCount`, counting tokens of a
string without special tokens). -/
def userMessageStartIdx (tokCount : List Char → ℕ) (textWA prompt : List Char) :
    ℕ :=
  match headerStartPos textWA prompt with
  | some i => if 0 < i then tokCount (textWA.take i) else 0
  | none => 0

/-! ## Lemmas about rounding -/

theorem roundHE_intCast (n : ℤ) : roundHE (n : ℝ) = n := by
  unfold roundHE
  rw [Int.fract_intCast]
  norm_num

theorem floor_le_roundHE (x : ℝ) : ⌊x⌋ ≤ roundHE x := by
  unfold roundHE
  split
  · split
    · exact le_refl _
    · exact Int.le_add_one (le_refl _)
  · rw [round_eq]
    exact Int.floor_le_floor (by linarith)

theorem roundHE_le_floor_add_one (x : ℝ) : roundHE x ≤ ⌊x⌋ + 1 := by
  unfold roundHE
  split
  · split
    · exact Int.le_add_one (le_refl _)
    · exact le_refl _
  · rw [round_eq]
    have : ⌊x + 1 / 2⌋ ≤ ⌊x + 1⌋ := Int.floor_le_floor (by linarith)
    simpa [Int.floor_add_one] using this

theorem roundHE_of_fract_lt (x : ℝ) (h : Int.fract x < 1 / 2) :
    roundHE x = ⌊x⌋ := by
  have hne : Int.fract x ≠ 1 / 2 := ne_of_lt h
  have hfr : x - ⌊x⌋ = Int.fract x := rfl
  unfold roundHE
  rw [if_neg hne, round_eq]
  refine Int.floor_eq_iff.mpr ⟨by linarith [Int.floor_le x], by linarith⟩

theorem roundHE_of_lt_fract (x : ℝ) (h : 1 / 2 < Int.fract x) :
    roundHE x = ⌊x⌋ + 1 := by
  have hne : Int.fract x ≠ 1 / 2 := (ne_of_lt h).symm
  have hfr : x - ⌊x⌋ = Int.fract x := rfl
  have hlt1 : Int.fract x < 1 := Int.fract_lt_one x
  unfold roundHE
  rw [if_neg hne, round_eq]
  refine Int.floor_eq_iff.mpr ⟨?_, ?_⟩
  · push_cast
    linarith
  · push_cast
    linarith

theorem roundHE_neg (x : ℝ) : roundHE (-x) = -roundHE x := by
  rcases eq_or_ne (Int.fract x) 0 with h0 | h0
  · have hx : x = (⌊x⌋ : ℝ) := by
      have : x - ⌊x⌋ = Int.fract x := rfl
      linarith [this.trans h0]
    rw [hx, ← Int.cast_neg, roundHE_intCast, roundHE_intCast]
  · have hfneg : Int.fract (-x) = 1 - Int.fract x := Int.fract_neg h0
    have hfr : x - ⌊x⌋ = Int.fract x := rfl
    have hfr0 : 0 ≤ Int.fract x := Int.fract_nonneg x
    have hfr1 : Int.fract x < 1 := Int.fract_lt_one x
    have hlt : (⌊x⌋ : ℝ) < x := by
      rcases lt_or_eq_of_le (Int.floor_le x) with h | h
      · exact h
      · exact absurd (by rw [← hfr]; linarith : Int.fract x = 0) h0
    have hfloorneg : ⌊-x⌋ = -⌊x⌋ - 1 := by
      refine Int.floor_eq_iff.mpr ⟨?_, ?_⟩
      · push_cast
        linarith [Int.lt_floor_add_one x]
      · push_cast
        linarith
    by_cases ht : Int.fract x = 1 / 2
    · have htn : Int.fract (-x) = 1 / 2 := by rw [hfneg, ht]; norm_num
      unfold roundHE
      rw [if_pos htn, if_pos ht, hfloorneg]
      have hpar : Even (-⌊x⌋ - 1) ↔ ¬ Even ⌊x⌋ := by
        rw [Int.even_iff, Int.even_iff]
        omega
      by_cases he : Even ⌊x⌋
      · rw [if_neg (by rw [hpar]; simp [he]), if_pos he]
        omega
      · rw [if_pos (hpar.mpr he), if_neg he]
        omega
    · rcases lt_or_gt_of_ne ht with hlt | hgt
      · have h1 : roundHE x = ⌊x⌋ := roundHE_of_fract_lt x hlt
        have h2 : roundHE (-x) = ⌊-x⌋ + 1 :=
          roundHE_of_lt_fract (-x) (by rw [hfneg]; linarith)
        rw [h1, h2, hfloorneg]; omega
      · have h1 : roundHE x = ⌊x⌋ + 1 := roundHE_of_lt_fract x hgt
        have h2 : roundHE (-x) = ⌊-x⌋ :=
          roundHE_of_fract_lt (-x) (by rw [hfneg]; linarith)
        rw [h1, h2, hfloorneg]; omega

theorem roundHE_mono {x y : ℝ} (h : x ≤ y) : roundHE x ≤ roundHE y := by
  rcases lt_or_eq_of_le (Int.floor_le_floor h) with hfl | hfl
  · calc roundHE x ≤ ⌊x⌋ + 1 := roundHE_le_floor_add_one x
      _ ≤ ⌊y⌋ := hfl
      _ ≤ roundHE y := floor_le_roundHE y
  · have hfrx : x - ⌊x⌋ = Int.fract x := rfl
    have hfry : y - ⌊y⌋ = Int.fract y := rfl
    have hfxy : Int.fract x ≤ Int.fract y := by
      rw [← hfrx, ← hfry, ← hfl]; linarith
    rcases lt_trichotomy (Int.fract x) (1 / 2) with h1 | h1 | h1
    · rw [roundHE_of_fract_lt x h1, hfl]
      exact floor_le_roundHE y
    · rcases lt_or_eq_of_le hfxy with h2 | h2
      · rw [roundHE_of_lt_fract y (by linarith), ← hfl]
        exact roundHE_le_floor_add_one x
      · have hxy : x = y := by
          have hx' : x = (⌊x⌋ : ℝ) + Int.fract x := by linarith
          have hy' : y = (⌊y⌋ : ℝ) + Int.fract y := by linarith
          rw [hx', hy', hfl, h2]
        rw [hxy]
    · rw [roundHE_of_lt_fract x h1, roundHE_of_lt_fract y (by linarith), hfl]

theorem round4_neg (x : ℝ) : round4 (-x) = -round4 x := by
  unfold round4
  rw [neg_mul, roundHE_neg]
  push_cast
  ring

theorem round4_intDiv (m : ℤ) : round4 ((m : ℝ) / 10000) = (m : ℝ) / 10000 := by
  unfold round4
  rw [div_mul_cancel₀ _ (by norm_num : (10000 : ℝ) ≠ 0), roundHE_intCast]

theorem round4_round4 (x : ℝ) : round4 (round4 x) = round4 x :=
  round4_intDiv _

theorem round4_mono {x y : ℝ} (h : x ≤ y) : round4 x ≤ round4 y := by
  unfold round4
  have hm : roundHE (x * 10000) ≤ roundHE (y * 10000) :=
    roundHE_mono (by nlinarith)
  have : (roundHE (x * 10000) : ℝ) ≤ (roundHE (y * 10000) : ℝ) := by
    exact_mod_cast hm
  linarith

/-! ## Lemmas about softmax and top-k -/

theorem expSum_pos {logits : List ℝ} (h : logits ≠ []) :
    0 < (logits.map Real.exp).sum := by
  refine List.sum_pos _ ?_ (by simpa using h)
  intro x hx
  obtain ⟨a, _, rfl⟩ := List.mem_map.mp hx
  exact Real.exp_pos a

theorem log_probAt {logits : List ℝ} (h : logits ≠ []) (i : ℕ) :
    Real.log (probAt logits i) = logProbAt logits i := by
  unfold probAt softmaxVal logProbAt
  rw [Real.log_div (Real.exp_ne_zero _) (ne_of_gt (expSum_pos h)), Real.log_exp]

theorem softmaxList_length (logits : List ℝ) :
    (softmaxList logits).length = logits.length := by
  simp [softmaxList]

theorem softmaxList_getD {logits : List ℝ} {i : ℕ} (h : i < logits.length) :
    (softmaxList logits).getD i 0 = probAt logits i := by
  unfold softmaxList probAt
  rw [List.getD_eq_getElem?_getD, List.getElem?_map,
    List.getElem?_eq_getElem h, List.getD_eq_getElem?_getD,
    List.getElem?_eq_getElem h]
  rfl

theorem topIdx_length (p : List ℝ) (k : ℕ) :
    (topIdx p k).length = min k p.length := by
  simp [topIdx]

theorem topIdx_mem_lt {p : List ℝ} {k i : ℕ} (h : i ∈ topIdx p k) :
    i < p.length := by
  unfold topIdx at h
  have h2 := (List.take_sublist _ _).subset h
  rw [List.mem_insertionSort] at h2
  exact List.mem_range.mp h2

theorem topIdx_nodup (p : List ℝ) (k : ℕ) : (topIdx p k).Nodup := by
  refine List.Nodup.sublist (List.take_sublist _ _) ?_
  exact ((List.perm_insertionSort (topOrd p) (List.range p.length)).nodup_iff).mpr
    (List.nodup_range _)

theorem topIdx_pairwise (p : List ℝ) (k : ℕ) :
    (topIdx p k).Pairwise (topOrd p) :=
  List.Pairwise.sublist (List.take_sublist _ _)
    (List.sorted_insertionSort (topOrd p) (List.range p.length))

theorem topIdx_head_mem {p : List ℝ} (hp : p ≠ []) {k : ℕ} (hk : 0 < k) :
    (topIdx p k).getD 0 0 ∈ topIdx p k := by
  have hlen : (topIdx p k).length = min k p.length := topIdx_length p k
  have hpos : 0 < (topIdx p k).length := by
    rw [hlen]
    exact lt_min hk (List.length_pos.mpr hp)
  cases h : topIdx p k with
  | nil => rw [h] at hpos; simp at hpos
  | cons a t => simp

theorem topIdx_head_max {p : List ℝ} {k : ℕ} (hk : 0 < k) :
    ∀ j, j < p.length → p.getD j 0 ≤ p.getD ((topIdx p k).getD 0 0) 0 := by
  intro j hj
  have hs : List.Sorted (topOrd p)
      (List.insertionSort (topOrd p) (List.range p.length)) :=
    List.sorted_insertionSort (topOrd p) (List.range p.length)
  have hjL : j ∈ List.insertionSort (topOrd p) (List.range p.length) := by
    rw [List.mem_insertionSort]
    exact List.mem_range.mpr hj
  cases hL : List.insertionSort (topOrd p) (List.range p.length) with
  | nil =>
    rw [hL] at hjL
    simp at hjL
  | cons a t =>
    have hhead : (topIdx p k).getD 0 0 = a := by
      unfold topIdx
      rw [hL]
      cases k with
      | zero => omega
      | succ m => simp
    rw [hL] at hjL hs
    rw [hhead]
    rcases List.mem_cons.mp hjL with rfl | hjt
    · exact le_refl _
    · rcases List.rel_of_sorted_cons hs j hjt with hlt | ⟨heq, _⟩
      · exact le_of_lt hlt
      · exact le_of_eq heq.symm

/-! ## Lemmas about the candidate lists and the generation loop -/

theorem mkCandidates_map_token_id (decode : ℕ → String) (logits : List ℝ)
    (k : ℕ) :
    (mkCandidates decode logits k).map Candidate.token_id =
      topIdx (softmaxList logits) k := by
  unfold mkCandidates
  rw [List.map_map]
  exact List.map_id _

theorem mkCandidates_length (decode : ℕ → String) (logits : List ℝ) (k : ℕ) :
    (mkCandidates decode logits k).length = min k logits.length := by
  unfold mkCandidates
  rw [List.length_map, topIdx_length, softmaxList_length]

theorem mkCandidates_prob_logprob (decode : ℕ → String) (logits : List ℝ)
    (k : ℕ) :
    (mkCandidates decode logits k).map (fun c => (c.prob, c.logprob)) =
      (topIdx (softmaxList logits) k).map (fun i =>
        (round4 (probAt logits i), round4 (Real.log (probAt logits i)))) := by
  unfold mkCandidates
  rw [List.map_map]
  refine List.map_congr_left ?_
  intro i hi
  have hil : i < logits.length := by
    have := topIdx_mem_lt hi
    rwa [softmaxList_length] at this
  have hne : logits ≠ [] := by
    intro h
    rw [h] at hil
    simp at hil
  simp [Function.comp, log_probAt hne i]

theorem mkCandidates_sorted (decode : ℕ → String) (logits : List ℝ) (k : ℕ) :
    (mkCandidates decode logits k).Pairwise (fun a b => b.prob ≤ a.prob) := by
  unfold mkCandidates
  rw [List.pairwise_map]
  refine List.Pairwise.imp_of_mem ?_ (topIdx_pairwise (softmaxList logits) k)
  intro i j hi hj hord
  have hil : i < logits.length := by
    have := topIdx_mem_lt hi
    rwa [softmaxList_length] at this
  have hjl : j < logits.length := by
    have := topIdx_mem_lt hj
    rwa [softmaxList_length] at this
  have hle : probAt logits j ≤ probAt logits i := by
    rw [← softmaxList_getD hil, ← softmaxList_getD hjl]
    rcases hord with hlt | ⟨heq, _⟩
    · exact le_of_lt hlt
    · exact le_of_eq heq.symm
  exact round4_mono hle

theorem mkCandidates_getD0 (decode : ℕ → String) (logits : List ℝ) (k : ℕ) :
    ((mkCandidates decode logits k).getD 0 default).token_id =
      (topIdx (softmaxList logits) k).getD 0 0 := by
  unfold mkCandidates
  cases topIdx (softmaxList logits) k with
  | nil => rfl
  | cons a t => rfl

theorem sampling_probs_length (logits : List ℝ) (Kreq : ℕ) (t : ℝ) :
    (sampling_probs_of logits Kreq t).length =
      (topIdx (softmaxList logits) (min Kreq logits.length)).length := by
  unfold sampling_probs_of
  rw [softmaxList_length, List.length_map]

theorem genLoopAux_spec (env : GenEnv) (Kreq : ℕ) (τ : Option ℝ)
    (rand : ℕ → ℕ) (chatMode : Bool) (inputIds : List ℕ) (bIdx : ℕ) :
    ∀ (fuel stepNo : ℕ) (cur gen : List ℕ),
      (genLoopAux env Kreq τ rand chatMode inputIds bIdx fuel stepNo cur
        gen).length ≤ fuel ∧
      ((genLoopAux env Kreq τ rand chatMode inputIds bIdx fuel stepNo cur
        gen).dropLast.all
          (fun s => s.selected_token.token_id != env.eosId)) = true ∧
      ((genLoopAux env Kreq τ rand chatMode inputIds bIdx fuel stepNo cur
          gen).length = fuel ∨
        ((genLoopAux env Kreq τ rand chatMode inputIds bIdx fuel stepNo cur
          gen).getLast?.map (fun s => s.selected_token.token_id) =
            some env.eosId)) := by
  intro fuel
  induction fuel with
  | zero =>
    intro stepNo cur gen
    simp [genLoopAux]
  | succ n ih =>
    intro stepNo cur gen
    by_cases hsel : (genLoopStep env Kreq τ rand chatMode inputIds bIdx stepNo
        cur gen).selected_token.token_id = env.eosId
    · rw [genLoopAux, if_pos hsel]
      exact ⟨by simp, by simp, Or.inr (by simp [hsel])⟩
    · rw [genLoopAux, if_neg hsel]
      obtain ⟨h1, h2, h3⟩ := ih (stepNo + 1)
        (cur ++ [(genLoopStep env Kreq τ rand chatMode inputIds bIdx stepNo cur
          gen).selected_token.token_id])
        (gen ++ [(genLoopStep env Kreq τ rand chatMode inputIds bIdx stepNo cur
          gen).selected_token.token_id])
      refine ⟨by simpa using Nat.succ_le_succ h1, ?_, ?_⟩
      · cases hrest : genLoopAux env Kreq τ rand chatMode inputIds bIdx n
          (stepNo + 1)
          (cur ++ [(genLoopStep env Kreq τ rand chatMode inputIds bIdx stepNo
            cur gen).selected_token.token_id])
          (gen ++ [(genLoopStep env Kreq τ rand chatMode inputIds bIdx stepNo
            cur gen).selected_token.token_id]) with
        | nil => simp
        | cons r rs =>
          rw [hrest] at h2
          rw [List.dropLast_cons₂, List.all_cons, h2]
          simpa using hsel
      · rcases h3 with h3 | h3
        · exact Or.inl (by rw [List.length_cons, h3])
        · right
          cases hrest : genLoopAux env Kreq τ rand chatMode inputIds bIdx n
            (stepNo + 1)
            (cur ++ [(genLoopStep env Kreq τ rand chatMode inputIds bIdx stepNo
              cur gen).selected_token.token_id])
            (gen ++ [(genLoopStep env Kreq τ rand chatMode inputIds bIdx stepNo
              cur gen).selected_token.token_id]) with
          | nil =>
            rw [hrest] at h3
            simp at h3
          | cons r rs =>
            rw [hrest] at h3
            rw [List.getLast?_cons_cons]
            exact h3

/-! ## Lemmas about the post-trace filter -/

theorem filterMap_cons_getElem (x : α) (xs : List α) (idx : List ℕ) :
    (idx.map Nat.succ).filterMap (fun i => (x :: xs)[i]?) =
      idx.filterMap (fun i => xs[i]?) := by
  rw [List.filterMap_map]
  congr 1
  funext i
  simp

theorem keep_idx_mem {l : List String} {i : ℕ} (h : i ∈ keep_idx l) :
    i < l.length ∧ is_newline_token (l.getD i "") = false := by
  unfold keep_idx at h
  have := List.mem_filter.mp h
  exact ⟨List.mem_range.mp this.1, by simpa using this.2⟩

theorem keep_idx_cons (t : String) (ts : List String) :
    keep_idx (t :: ts) =
      (if is_newline_token t then [] else [0]) ++ (keep_idx ts).map Nat.succ := by
  unfold keep_idx
  rw [List.length_cons, List.range_succ_eq_map, List.filter_cons,
    List.filter_map]
  by_cases ht : is_newline_token t <;>
    simp [ht, Function.comp_def, List.getD_cons_succ, List.getD_cons_zero]

theorem filterMap_keep_idx (l : List String) :
    (keep_idx l).filterMap (fun i => l[i]?) =
      l.filter (fun t => !is_newline_token t) := by
  induction l with
  | nil => rfl
  | cons t ts ih =>
    rw [keep_idx_cons, List.filterMap_append, filterMap_cons_getElem,
      List.filter_cons, ih]
    by_cases ht : is_newline_token t <;> simp [ht]

theorem filterMap_getElem_length {α : Type} {l : List α} {idx : List ℕ}
    (h : ∀ i ∈ idx, i < l.length) :
    (idx.filterMap (fun i => l[i]?)).length = idx.length := by
  induction idx with
  | nil => rfl
  | cons i is ih =>
    rw [List.filterMap_cons,
      List.getElem?_eq_getElem (h i (List.mem_cons_self i is))]
    simp only [List.length_cons]
    rw [ih (fun j hj => h j (List.mem_cons_of_mem i hj))]

theorem keep_idx_length (l : List String) :
    (keep_idx l).length = (l.filter (fun t => !is_newline_token t)).length := by
  rw [← filterMap_keep_idx]
  exact (filterMap_getElem_length (fun i hi => (keep_idx_mem hi).1)).symm

theorem keep_idx_of_none_newline {l : List String}
    (h : ∀ t ∈ l, is_newline_token t = false) :
    keep_idx l = List.range l.length := by
  unfold keep_idx
  refine List.filter_eq_self.mpr ?_
  intro i hi
  have hlt : i < l.length := List.mem_range.mp hi
  rw [List.getD_eq_getElem l "" hlt]
  simp [h _ (List.getElem_mem hlt)]

theorem filterMap_range_getElem {α : Type} (xs : List α) :
    ∀ (m : ℕ), xs.length ≤ m →
      (List.range m).filterMap (fun i => xs[i]?) = xs := by
  induction xs with
  | nil =>
    intro m _
    simp
  | cons x ts ih =>
    intro m hm
    cases m with
    | zero => simp at hm
    | succ m' =>
      rw [List.range_succ_eq_map, List.filterMap_cons, filterMap_cons_getElem,
        ih m' (by simpa using hm)]
      simp

theorem pySelect_length {xs : List ℕ} :
    ∀ {idx ys : List ℕ}, pySelect xs idx = some ys → ys.length = idx.length := by
  intro idx
  induction idx with
  | nil =>
    intro ys h
    unfold pySelect at h
    injection h with h
    rw [← h]
  | cons i is ih =>
    intro ys h
    unfold pySelect at h
    cases h1 : xs[i]? with
    | none => rw [h1] at h; simp at h
    | some x =>
      rw [h1] at h
      cases h2 : pySelect xs is with
      | none => rw [h2] at h; simp at h
      | some rest =>
        rw [h2] at h
        injection h with h
        rw [← h, List.length_cons, List.length_cons, ih h2]

theorem pySelect_some {xs : List ℕ} :
    ∀ {idx : List ℕ}, (∀ i ∈ idx, i < xs.length) →
      pySelect xs idx = some (idx.filterMap (fun i => xs[i]?)) := by
  intro idx
  induction idx with
  | nil => intro _; rfl
  | cons i is ih =>
    intro h
    unfold pySelect
    rw [List.getElem?_eq_getElem (h i (List.mem_cons_self i is)),
      ih (fun j hj => h j (List.mem_cons_of_mem i hj)), List.filterMap_cons,
      List.getElem?_eq_getElem (h i (List.mem_cons_self i is))]

theorem pySelect_range (xs : List ℕ) :
    pySelect xs (List.range xs.length) = some xs := by
  rw [pySelect_some (fun i hi => List.mem_range.mp hi),
    filterMap_range_getElem xs xs.length (le_refl _)]

theorem strip_newlines_idem (s : String) :
    strip_newlines (strip_newlines s) = strip_newlines s := by
  unfold strip_newlines
  refine congrArg String.mk ?_
  rw [List.filter_filter]
  refine List.filter_congr ?_
  intro c _
  cases hc : (!(c == '\r') && !(c == '\n')) <;> simp [hc]

theorem filterEmbEntry_stable {keep : List ℕ} {L : ℕ} (hL : keep.length ≤ L)
    (e : EmbEntry) :
    filterEmbEntry (List.range L) (filterEmbEntry keep e) =
      filterEmbEntry keep e := by
  cases e with
  | other s => rfl
  | arr xs =>
    unfold filterEmbEntry
    refine congrArg EmbEntry.arr ?_
    exact filterMap_range_getElem _ L
      (le_trans (List.length_filterMap_le _ _) hL)

theorem filter_kept_some {s s' : VisStep} (h : filter_kept s = some s') :
    s'.tokens = (keep_idx s.tokens).filterMap (fun i => s.tokens[i]?) ∧
    s'.input_text = strip_newlines s.input_text ∧
    s'.output_distribution = s.output_distribution ∧
    s'.selected_token = s.selected_token ∧
    s'.step = s.step ∧
    s'.embeddings = s.embeddings.map (fun d =>
      d.map (fun p => (p.1, filterEmbEntry (keep_idx s.tokens) p.2))) ∧
    ((s.token_ids.isEmpty = true ∧ s'.token_ids = s.token_ids) ∨
      (s.token_ids.isEmpty = false ∧
        pySelect s.token_ids (keep_idx s.tokens) = some s'.token_ids)) := by
  unfold filter_kept at h
  cases he : s.token_ids.isEmpty with
  | true =>
    rw [he] at h
    simp only [if_true] at h
    injection h with h
    rw [← h]
    exact ⟨rfl, rfl, rfl, rfl, rfl, rfl, Or.inl ⟨rfl, rfl⟩⟩
  | false =>
    rw [he] at h
    simp only [Bool.false_eq_true, if_false] at h
    cases hp : pySelect s.token_ids (keep_idx s.tokens) with
    | none => rw [hp] at h; simp at h
    | some fids =>
      rw [hp] at h
      injection h with h
      rw [← h]
      exact ⟨rfl, rfl, rfl, rfl, rfl, rfl, Or.inr ⟨rfl, rfl⟩⟩

theorem filter_kept_stable {s s' : VisStep} (h : filter_kept s = some s')
    (n : ℕ) :
    filter_kept { s' with step := n } = some { s' with step := n } := by
  obtain ⟨htok, htext, _, _, _, hemb, hids⟩ := filter_kept_some h
  obtain ⟨st, itx, tks, tids, od, sel, emb⟩ := s'
  dsimp only at htok htext hemb hids
  have htok' : tks = s.tokens.filter (fun t => !is_newline_token t) := by
    rw [htok, filterMap_keep_idx]
  have hallk : ∀ t ∈ tks, is_newline_token t = false := by
    intro t ht
    rw [htok'] at ht
    have := List.mem_filter.mp ht
    simpa using this.2
  have hk' : keep_idx tks = List.range tks.length :=
    keep_idx_of_none_newline hallk
  have hklen : (keep_idx s.tokens).length = tks.length := by
    rw [keep_idx_length, ← htok']
  have htokstable : (keep_idx tks).filterMap (fun i => tks[i]?) = tks := by
    rw [hk']
    exact filterMap_range_getElem _ _ (le_refl _)
  have htextstable : strip_newlines itx = itx := by
    rw [htext]
    exact strip_newlines_idem _
  have hembstable : emb.map (fun d =>
      d.map (fun p => (p.1, filterEmbEntry (keep_idx tks) p.2))) = emb := by
    rw [hemb]
    cases s.embeddings with
    | none => rfl
    | some d =>
      simp only [Option.map_some']
      refine congrArg some ?_
      rw [List.map_map]
      refine List.map_congr_left ?_
      intro p _
      simp only [Function.comp_def]
      refine congrArg (fun e => (p.1, e)) ?_
      rw [hk']
      exact filterEmbEntry_stable (le_of_eq hklen) p.2
  have hidsstable : (if tids.isEmpty then some tids
      else pySelect tids (keep_idx tks)) = some tids := by
    cases he' : tids.isEmpty with
    | true => simp [he']
    | false =>
      rcases hids with ⟨hemp, heq⟩ | ⟨_, hsel2⟩
      · rw [heq] at he'
        rw [hemp] at he'
        simp at he'
      · have hlen : tids.length = (keep_idx s.tokens).length :=
          pySelect_length hsel2
        rw [if_neg (by simp [he']), hk']
        rw [show tks.length = tids.length by rw [hlen, hklen]]
        exact pySelect_range tids
  unfold filter_kept
  dsimp only
  rw [hidsstable]
  dsimp only
  rw [htokstable, htextstable, hembstable]

theorem renumberFrom_length (n : ℕ) (l : List VisStep) :
    (renumberFrom n l).length = l.length := by
  induction l generalizing n with
  | nil => rfl
  | cons s rest ih => simp [renumberFrom, ih]

theorem renumberFrom_getD (l : List VisStep) :
    ∀ (n i : ℕ), i < l.length →
      (renumberFrom n l).getD i default =
        { l.getD i default with step := n + i } := by
  induction l with
  | nil =>
    intro n i h
    simp at h
  | cons s rest ih =>
    intro n i h
    cases i with
    | zero => simp [renumberFrom]
    | succ j =>
      show (renumberFrom n (s :: rest)).getD (j + 1) default = _
      rw [renumberFrom, List.getD_cons_succ, List.getD_cons_succ,
        ih (n + 1) j (by simpa using h)]
      have harith : n + 1 + j = n + (j + 1) := by omega
      rw [harith]

theorem renumberFrom_idem (l : List VisStep) :
    ∀ n, renumberFrom n (renumberFrom n l) = renumberFrom n l := by
  induction l with
  | nil => intro n; rfl
  | cons s rest ih =>
    intro n
    show renumberFrom n ({ s with step := n } :: renumberFrom (n + 1) rest) = _
    rw [renumberFrom, ih (n + 1)]
    conv_rhs => rw [renumberFrom]

theorem filterMap_id_map_some (l : List VisStep) :
    (l.map some).filterMap id = l := by
  induction l with
  | nil => rfl
  | cons s rest ih => simp [ih]

theorem traverseSteps_corr :
    ∀ (steps : List VisStep) (os : List (Option VisStep)),
      traverseSteps steps = some os →
      ((os.filterMap id).length =
        (steps.filter
          (fun s => !is_newline_token s.selected_token.token)).length ∧
       ∀ i, i < (steps.filter
          (fun s => !is_newline_token s.selected_token.token)).length →
         filter_kept ((steps.filter
            (fun s => !is_newline_token s.selected_token.token)).getD i
              default) =
           some ((os.filterMap id).getD i default)) := by
  intro steps
  induction steps with
  | nil =>
    intro os h
    injection h with h
    rw [← h]
    exact ⟨rfl, by intro i hi; simp at hi⟩
  | cons s rest ih =>
    intro os h
    rw [traverseSteps] at h
    cases h1 : filter_step s with
    | none =>
      rw [h1] at h
      simp at h
    | some o =>
      cases h2 : traverseSteps rest with
      | none =>
        rw [h1, h2] at h
        simp at h
      | some os' =>
        rw [h1, h2] at h
        dsimp only at h
        injection h with h
        rw [← h]
        unfold filter_step at h1
        by_cases hnl : is_newline_token s.selected_token.token
        · rw [if_pos hnl] at h1
          injection h1 with h1
          rw [← h1]
          rw [List.filter_cons_of_neg (by simp [hnl])]
          simpa using ih os' h2
        · rw [if_neg hnl] at h1
          cases hk : filter_kept s with
          | none =>
            rw [hk] at h1
            simp at h1
          | some s' =>
            rw [hk] at h1
            simp only [Option.map_some'] at h1
            injection h1 with h1
            rw [← h1]
            rw [List.filter_cons_of_pos (by simp [hnl])]
            obtain ⟨hlen, hidx⟩ := ih os' h2
            constructor
            · simp only [List.filterMap_cons, id, List.length_cons]
              rw [hlen]
            · intro i hi
              cases i with
              | zero =>
                simpa using hk
              | succ j =>
                simp only [List.filterMap_cons, id, List.getD_cons_succ]
                exact hidx j (by simpa using hi)

theorem traverseSteps_of_stable :
    ∀ (l : List VisStep),
      (∀ i, i < l.length →
        filter_step (l.getD i default) = some (some (l.getD i default))) →
      traverseSteps l = some (l.map some) := by
  intro l
  induction l with
  | nil => intro _; rfl
  | cons s rest ih =>
    intro h
    have h0 := h 0 (by simp)
    rw [List.getD_cons_zero] at h0
    rw [traverseSteps, h0, ih (fun i hi => by
      have := h (i + 1) (by simpa using Nat.succ_lt_succ hi)
      rwa [List.getD_cons_succ] at this)]
    rfl

/-! ## Lemmas about the training recorder -/

theorem process_training_length (modelT : List ℕ → ℕ → List ℝ)
    (decode : ℕ → String) (ids0 : List ℕ) (maxT : Option ℕ) :
    (process_training modelT decode ids0 maxT).length =
      (pyTrunc ids0 maxT).length := by
  unfold process_training
  rw [List.length_map, List.length_range]

theorem process_training_getD (modelT : List ℕ → ℕ → List ℝ)
    (decode : ℕ → String) (ids0 : List ℕ) (maxT : Option ℕ) (i : ℕ)
    (hi : i < (pyTrunc ids0 maxT).length) :
    (process_training modelT decode ids0 maxT).getD i default =
      mkTrainStep decode
        (if 0 < i then modelT (pyTrunc ids0 maxT) (i - 1)
         else modelT (pyTrunc ids0 maxT) 0)
        i (pyTrunc ids0 maxT) ((pyTrunc ids0 maxT).map decode) := by
  unfold process_training
  rw [List.getD_eq_getElem?_getD, List.getElem?_map, List.getElem?_range hi]
  rfl

/-! ## The claims -/

/-- C1: For every generation step, the recorded `output_distribution`
(top-K candidates with their prob/logprob) is computed from the raw logits
by temperature-free softmax/log-softmax over the full vocabulary;
consequently, two runs of the recorder with identical context, logits and
K but different temperature values (and different multinomial draws)
produce identical `output_distribution` fields (only `selected_token` may
differ).  The second conjunct exhibits every candidate's serialized `prob`
and `logprob` as 4-digit roundings of the softmax probability of its id
(logprob being the rounding of its logarithm), independent of τ. -/
theorem base_distribution_temperature_invariant (decode : ℕ → String)
    (logits : List ℝ) (Kreq : ℕ) (τ₁ τ₂ : Option ℝ) (r₁ r₂ stepNo : ℕ)
    (txt : String) (toks : List String) (ids : List ℕ) :
    (genStepRecord decode logits Kreq τ₁ r₁ stepNo txt toks
        ids).output_distribution =
      (genStepRecord decode logits Kreq τ₂ r₂ stepNo txt toks
        ids).output_distribution ∧
    (genStepRecord decode logits Kreq τ₁ r₁ stepNo txt toks
        ids).output_distribution.candidates.map (fun c => (c.prob, c.logprob)) =
      (topIdx (softmaxList logits) (min Kreq logits.length)).map (fun i =>
        (round4 (probAt logits i), round4 (Real.log (probAt logits i)))) :=
  ⟨rfl, mkCandidates_prob_logprob decode logits (min Kreq logits.length)⟩

/-- C6: The inference loop runs at most `max_new_tokens` iterations,
producing one step record per iteration; every step before the last has a
non-EOS selection (generation stops immediately after recording an EOS
step, which stays part of the trace), and the trace is shorter than
`max_new_tokens` only when its last step selected EOS — otherwise it has
exactly `max_new_tokens` steps. -/
theorem generation_loop_bound_and_eos (env : GenEnv) (Kreq : ℕ)
    (τ : Option ℝ) (rand : ℕ → ℕ) (chatMode : Bool) (inputIds : List ℕ)
    (bIdx maxNew : ℕ) :
    (generate env Kreq τ rand chatMode inputIds bIdx maxNew).length ≤
      maxNew ∧
    ((generate env Kreq τ rand chatMode inputIds bIdx
        maxNew).dropLast.all
          (fun s => s.selected_token.token_id != env.eosId)) = true ∧
    ((generate env Kreq τ rand chatMode inputIds bIdx maxNew).length =
        maxNew ∨
      ((generate env Kreq τ rand chatMode inputIds bIdx
          maxNew).getLast?.map (fun s => s.selected_token.token_id) =
        some env.eosId)) :=
  genLoopAux_spec env Kreq τ rand chatMode inputIds bIdx maxNew 0 inputIds []

/-- C7: For every emitted Distribution, the candidates sequence has
exactly `min (requested K) (vocabulary size)` entries, is sorted by
descending serialized `prob`, its `token_id`s are distinct, and each
candidate's serialized `prob` and `logprob` are the 4-digit roundings of
the same softmax value and of its logarithm respectively (so
`round (exp logprob) 4 == prob` up to the rounding applied to the shared
underlying value). -/
theorem distribution_candidates_invariants (decode : ℕ → String)
    (logits : List ℝ) (Kreq : ℕ) (τ : Option ℝ) (r stepNo : ℕ)
    (txt : String) (toks : List String) (ids : List ℕ) :
    (genStepRecord decode logits Kreq τ r stepNo txt toks
        ids).output_distribution.candidates.length =
      min Kreq logits.length ∧
    (genStepRecord decode logits Kreq τ r stepNo txt toks
        ids).output_distribution.candidates.Pairwise
          (fun a b => b.prob ≤ a.prob) ∧
    ((genStepRecord decode logits Kreq τ r stepNo txt toks
        ids).output_distribution.candidates.map Candidate.token_id).Nodup ∧
    (genStepRecord decode logits Kreq τ r stepNo txt toks
        ids).output_distribution.candidates.map (fun c => (c.prob, c.logprob)) =
      (topIdx (softmaxList logits) (min Kreq logits.length)).map (fun i =>
        (round4 (probAt logits i), round4 (Real.log (probAt logits i)))) := by
  refine ⟨?_, mkCandidates_sorted decode logits (min Kreq logits.length),
    ?_, mkCandidates_prob_logprob decode logits (min Kreq logits.length)⟩
  · show (mkCandidates decode logits (min Kreq logits.length)).length = _
    rw [mkCandidates_length]
    omega
  · show ((mkCandidates decode logits
      (min Kreq logits.length)).map Candidate.token_id).Nodup
    rw [mkCandidates_map_token_id]
    exact topIdx_nodup _ _

/-- C2: the Step Sampler's selection contract.  If the temperature is
absent or ≤ 0, the selected token is the rank-0 candidate (which carries
the highest base probability over the whole vocabulary) and the method is
"greedy".  Otherwise the selected id is drawn from the fresh categorical
distribution `softmax (top-K raw logits / τ)` (never a renormalization of
the rounded base probabilities), so it is one of the current
distribution's candidate ids, and the method is "sampling". -/
theorem sampler_selection_contract (decode : ℕ → String) (logits : List ℝ)
    (Kreq : ℕ) (τ : Option ℝ) (r stepNo : ℕ) (txt : String)
    (toks : List String) (ids : List ℕ) (hK : 0 < Kreq)
    (hl : logits ≠ []) :
    ((τ = none ∨ ∃ t, τ = some t ∧ t ≤ 0) →
      (genStepRecord decode logits Kreq τ r stepNo txt toks
          ids).selected_token.selection_method = "greedy" ∧
      (genStepRecord decode logits Kreq τ r stepNo txt toks
          ids).selected_token.token_id =
        ((genStepRecord decode logits Kreq τ r stepNo txt toks
          ids).output_distribution.candidates.getD 0 default).token_id ∧
      ∀ j, j < logits.length →
        probAt logits j ≤
          probAt logits ((genStepRecord decode logits Kreq τ r stepNo txt
            toks ids).selected_token.token_id)) ∧
    (∀ t, τ = some t → 0 < t →
      (genStepRecord decode logits Kreq τ r stepNo txt toks
          ids).selected_token.selection_method = "sampling" ∧
      (genStepRecord decode logits Kreq τ r stepNo txt toks
          ids).selected_token.token_id ∈
        (genStepRecord decode logits Kreq τ r stepNo txt toks
          ids).output_distribution.candidates.map Candidate.token_id ∧
      (genStepRecord decode logits Kreq τ r stepNo txt toks
          ids).selected_token.token_id =
        (topIdx (softmaxList logits) (min Kreq logits.length)).getD
          (multinomialIdx (sampling_probs_of logits Kreq t) r) 0 ∧
      sampling_probs_of logits Kreq t =
        softmaxList ((topIdx (softmaxList logits)
          (min Kreq logits.length)).map (fun i => logits.getD i 0 / t))) := by
  have hpne : softmaxList logits ≠ [] := by
    intro h
    apply hl
    unfold softmaxList at h
    exact List.map_eq_nil_iff.mp h
  have hk : 0 < min Kreq logits.length :=
    lt_min hK (List.length_pos.mpr hl)
  have hheadlt :
      (topIdx (softmaxList logits) (min Kreq logits.length)).getD 0 0 <
        logits.length := by
    have hmem := topIdx_head_mem hpne hk
    have := topIdx_mem_lt hmem
    rwa [softmaxList_length] at this
  have hgreedy :
      ∀ j, j < logits.length →
        probAt logits j ≤ probAt logits
          ((topIdx (softmaxList logits) (min Kreq logits.length)).getD 0
            0) := by
    intro j hj
    have := topIdx_head_max hk j (by rw [softmaxList_length]; exact hj)
    rwa [softmaxList_getD hj, softmaxList_getD hheadlt] at this
  constructor
  · intro hτ
    rcases hτ with rfl | ⟨t, rfl, ht⟩
    · exact ⟨rfl, (mkCandidates_getD0 decode logits _).symm, hgreedy⟩
    · refine ⟨?_, ?_, ?_⟩
      · show (selectTok logits Kreq (some t) r).2 = "greedy"
        simp only [selectTok]
        rw [if_pos ht]
      · show (selectTok logits Kreq (some t) r).1 = _
        simp only [selectTok]
        rw [if_pos ht]
        exact (mkCandidates_getD0 decode logits _).symm
      · show ∀ j, j < logits.length →
          probAt logits j ≤ probAt logits (selectTok logits Kreq (some t) r).1
        simp only [selectTok]
        rw [if_pos ht]
        exact hgreedy
  · intro t ht hpos
    subst ht
    have hneg : ¬ t ≤ 0 := not_le.mpr hpos
    have hsel : (selectTok logits Kreq (some t) r).1 =
        (topIdx (softmaxList logits) (min Kreq logits.length)).getD
          (multinomialIdx (sampling_probs_of logits Kreq t) r) 0 := by
      simp only [selectTok]
      rw [if_neg hneg]
    refine ⟨?_, ?_, hsel, rfl⟩
    · show (selectTok logits Kreq (some t) r).2 = "sampling"
      simp only [selectTok]
      rw [if_neg hneg]
    · show (selectTok logits Kreq (some t) r).1 ∈
        (mkCandidates decode logits (min Kreq logits.length)).map
          Candidate.token_id
      rw [mkCandidates_map_token_id, hsel]
      have htkilen :
          (topIdx (softmaxList logits) (min Kreq logits.length)).length =
            min Kreq logits.length := by
        rw [topIdx_length, softmaxList_length]
        omega
      have hmlt : multinomialIdx (sampling_probs_of logits Kreq t) r <
          (topIdx (softmaxList logits) (min Kreq logits.length)).length := by
        unfold multinomialIdx
        rw [sampling_probs_length]
        exact Nat.mod_lt r (by rw [htkilen]; exact hk)
      rw [List.getD_eq_getElem _ _ hmlt]
      exact List.getElem_mem hmlt

/-- C3: For every training step, the serialized `loss` equals the negated
serialized `target_logprob` re-rounded to 4 decimal digits:
`loss == round(-target_logprob, 4)`.  The loss is the single-label
cross-entropy of the full-vocabulary distribution against the ground-truth
id, which equals `-log_softmax(logits)[target]`. -/
theorem training_loss_matches_logprob (modelT : List ℕ → ℕ → List ℝ)
    (decode : ℕ → String) (ids0 : List ℕ) (maxT : Option ℕ)
    (hm : ∀ p, modelT (pyTrunc ids0 maxT) p ≠ []) (i : ℕ)
    (hi : i < (pyTrunc ids0 maxT).length) :
    ((process_training modelT decode ids0 maxT).getD i default).loss =
      round4 (-(((process_training modelT decode ids0 maxT).getD i
        default).target_logprob)) := by
  rw [process_training_getD modelT decode ids0 maxT i hi]
  have hLne : (if 0 < i then modelT (pyTrunc ids0 maxT) (i - 1)
      else modelT (pyTrunc ids0 maxT) 0) ≠ [] := by
    split
    · exact hm _
    · exact hm _
  show round4 (crossEntropy _ _) = round4 (-(round4 (logProbAt _ _)))
  rw [show crossEntropy (if 0 < i then modelT (pyTrunc ids0 maxT) (i - 1)
        else modelT (pyTrunc ids0 maxT) 0)
        ((pyTrunc ids0 maxT).getD i 0) =
      -(logProbAt (if 0 < i then modelT (pyTrunc ids0 maxT) (i - 1)
        else modelT (pyTrunc ids0 maxT) 0) ((pyTrunc ids0 maxT).getD i 0))
    from by rw [crossEntropy, log_probAt hLne]]
  rw [round4_neg, round4_neg, round4_round4]

/-- C4: For every tokenized text of `N` positions (after the optional
truncation) there is exactly one training step per position `0..N-1`;
step `i`'s `input_tokens`/`input_token_ids` are the prefixes of length
`i` (empty at position 0), its target is the token at position `i`, and
its predicted-from logits are the model's output at position `i - 1` for
`i > 0` and at position `0` for `i = 0` (witnessed through the
`target_logprob` and `predictions` fields, which are computed from those
logits). -/
theorem training_steps_alignment (modelT : List ℕ → ℕ → List ℝ)
    (decode : ℕ → String) (ids0 : List ℕ) (maxT : Option ℕ) :
    (process_training modelT decode ids0 maxT).length =
      (pyTrunc ids0 maxT).length ∧
    ∀ i, i < (pyTrunc ids0 maxT).length →
      ((process_training modelT decode ids0 maxT).getD i default).step = i ∧
      ((process_training modelT decode ids0 maxT).getD i
          default).input_tokens = ((pyTrunc ids0 maxT).map decode).take i ∧
      ((process_training modelT decode ids0 maxT).getD i
          default).input_token_ids = (pyTrunc ids0 maxT).take i ∧
      ((process_training modelT decode ids0 maxT).getD i
          default).target_token_id = (pyTrunc ids0 maxT).getD i 0 ∧
      ((process_training modelT decode ids0 maxT).getD i
          default).target_logprob =
        round4 (logProbAt
          (if 0 < i then modelT (pyTrunc ids0 maxT) (i - 1)
           else modelT (pyTrunc ids0 maxT) 0)
          ((pyTrunc ids0 maxT).getD i 0)) ∧
      ((process_training modelT decode ids0 maxT).getD i
          default).predictions =
        mkCandidates decode
          (if 0 < i then modelT (pyTrunc ids0 maxT) (i - 1)
           else modelT (pyTrunc ids0 maxT) 0) 10 := by
  refine ⟨process_training_length modelT decode ids0 maxT, ?_⟩
  intro i hi
  rw [process_training_getD modelT decode ids0 maxT i hi]
  refine ⟨rfl, ?_, ?_, rfl, rfl, rfl⟩
  · show (if 0 < i then ((pyTrunc ids0 maxT).map decode).take i else []) = _
    by_cases h0 : 0 < i
    · rw [if_pos h0]
    · rw [if_neg h0]
      have : i = 0 := by omega
      rw [this, List.take_zero]
  · show (if 0 < i then (pyTrunc ids0 maxT).take i else []) = _
    by_cases h0 : 0 < i
    · rw [if_pos h0]
    · rw [if_neg h0]
      have : i = 0 := by omega
      rw [this, List.take_zero]

theorem traverseSteps_all_none (l : List VisStep)
    (h : ∀ s ∈ l, filter_step s = some none) :
    traverseSteps l = some (l.map (fun _ => none)) := by
  induction l with
  | nil => rfl
  | cons s rest ih =>
    rw [traverseSteps, h s (List.mem_cons_self s rest),
      ih (fun x hx => h x (List.mem_cons_of_mem s hx))]
    rfl

/-- Shared skeleton for the filter claims: a successful pass yields
exactly one output step per kept input step, the output at index `i`
being the filtered version of kept step `i` renumbered to `i`. -/
theorem filter_trace_corr {steps out : List VisStep}
    (h : filter_trace steps = some out) :
    out.length = (kept_steps steps).length ∧
    ∀ i, i < (kept_steps steps).length →
      ∃ s', filter_kept ((kept_steps steps).getD i default) = some s' ∧
        out.getD i default = { s' with step := i } := by
  unfold filter_trace at h
  cases ht : traverseSteps steps with
  | none =>
    rw [ht] at h
    simp at h
  | some os =>
    rw [ht] at h
    simp only [Option.map_some'] at h
    injection h with h
    obtain ⟨hlen, hidx⟩ := traverseSteps_corr steps os ht
    have houtlen : out.length = (kept_steps steps).length := by
      rw [← h, renumberFrom_length, hlen]
      rfl
    refine ⟨houtlen, ?_⟩
    intro i hi
    have hiks : i < (os.filterMap id).length := by
      rw [hlen]
      exact hi
    refine ⟨(os.filterMap id).getD i default, hidx i hi, ?_⟩
    rw [← h, renumberFrom_getD _ 0 i hiks]
    have : (0 : ℕ) + i = i := by omega
    rw [this]

/-- C8: The Post-Trace Filter is idempotent (and, being a plain function
of its input trace, trivially deterministic): whenever a pass succeeds,
running the filter again on its output returns that output unchanged. -/
theorem filter_trace_idempotent {steps out : List VisStep}
    (h : filter_trace steps = some out) : filter_trace out = some out := by
  have hcorr := filter_trace_corr h
  obtain ⟨houtlen, hidx⟩ := hcorr
  have hstable : ∀ i, i < out.length →
      filter_step (out.getD i default) = some (some (out.getD i default)) := by
    intro i hi
    obtain ⟨s', hfk, hout_i⟩ := hidx i (by rwa [houtlen] at hi)
    have hselne : is_newline_token s'.selected_token.token = false := by
      have hsel_eq := (filter_kept_some hfk).2.2.2.1
      rw [hsel_eq]
      have hinm : i < (kept_steps steps).length := by rwa [houtlen] at hi
      have hmem : (kept_steps steps).getD i default ∈ kept_steps steps := by
        rw [List.getD_eq_getElem _ _ hinm]
        exact List.getElem_mem hinm
      have := List.mem_filter.mp hmem
      simpa using this.2
    have hstab := filter_kept_stable hfk i
    rw [hout_i]
    unfold filter_step
    rw [if_neg (by simpa using hselne)]
    rw [hstab]
    rfl
  unfold filter_trace
  rw [traverseSteps_of_stable out hstable]
  simp only [Option.map_some']
  refine congrArg some ?_
  rw [filterMap_id_map_some]
  unfold filter_trace at h
  cases ht : traverseSteps steps with
  | none =>
    rw [ht] at h
    simp at h
  | some os =>
    rw [ht] at h
    simp only [Option.map_some'] at h
    injection h with h
    rw [← h, renumberFrom_idem]

/-- C10: The Post-Trace Filter builds a new trace (the embedding is a
pure function of the input, which it does not and cannot mutate); for
every surviving step, all fields other than `tokens`, `token_ids`,
`input_text`, `embeddings` and the step number — in particular
`output_distribution` and `selected_token` — are identical to the
corresponding kept input step's fields. -/
theorem filter_preserves_other_fields {steps out : List VisStep}
    (h : filter_trace steps = some out) :
    out.length = (kept_steps steps).length ∧
    ∀ i, i < out.length →
      (out.getD i default).output_distribution =
        ((kept_steps steps).getD i default).output_distribution ∧
      (out.getD i default).selected_token =
        ((kept_steps steps).getD i default).selected_token := by
  obtain ⟨houtlen, hidx⟩ := filter_trace_corr h
  refine ⟨houtlen, ?_⟩
  intro i hi
  obtain ⟨s', hfk, hout_i⟩ := hidx i (by rwa [houtlen] at hi)
  obtain ⟨_, _, hod, hsel, _, _, _⟩ := filter_kept_some hfk
  rw [hout_i]
  exact ⟨hod, hsel⟩

/-- C5: The Post-Trace Filter with the line-break predicate drops exactly
the steps whose selected token contains a line break; each surviving step
has `tokens`, `token_ids` (and embedding arrays) filtered through the one
shared keep-list `keep_idx tokens`, so equal lengths of `tokens` and
`token_ids` are preserved; `input_text` has its line-break characters
stripped; surviving steps are renumbered to a contiguous 0-based
sequence; and a trace whose every selected token matches the predicate
yields zero surviving steps rather than an error. -/
theorem filter_drops_and_reindexes (steps : List VisStep) :
    ((∀ s ∈ steps, is_newline_token s.selected_token.token = true) →
      filter_trace steps = some []) ∧
    (∀ out, filter_trace steps = some out →
      out.length = (kept_steps steps).length ∧
      ∀ i, i < (kept_steps steps).length →
        (out.getD i default).tokens =
          (keep_idx ((kept_steps steps).getD i default).tokens).filterMap
            (fun j => ((kept_steps steps).getD i default).tokens[j]?) ∧
        (((kept_steps steps).getD i default).token_ids.isEmpty = false →
          pySelect ((kept_steps steps).getD i default).token_ids
            (keep_idx ((kept_steps steps).getD i default).tokens) =
            some (out.getD i default).token_ids) ∧
        (((kept_steps steps).getD i default).tokens.length =
            ((kept_steps steps).getD i default).token_ids.length →
          (out.getD i default).tokens.length =
            (out.getD i default).token_ids.length) ∧
        (out.getD i default).input_text =
          strip_newlines ((kept_steps steps).getD i default).input_text ∧
        (out.getD i default).step = i ∧
        (out.getD i default).embeddings =
          ((kept_steps steps).getD i default).embeddings.map (fun d =>
            d.map (fun p =>
              (p.1, filterEmbEntry
                (keep_idx ((kept_steps steps).getD i default).tokens)
                p.2)))) := by
  constructor
  · intro hall
    unfold filter_trace
    rw [traverseSteps_all_none steps (fun s hs => by
      unfold filter_step
      rw [if_pos (hall s hs)])]
    simp only [Option.map_some']
    refine congrArg some ?_
    have : (steps.map (fun _ => (none : Option VisStep))).filterMap id = [] := by
      simp [List.filterMap_map]
    rw [this]
    rfl
  · intro out hout
    obtain ⟨houtlen, hidx⟩ := filter_trace_corr hout
    refine ⟨houtlen, ?_⟩
    intro i hi
    obtain ⟨s', hfk, hout_i⟩ := hidx i hi
    obtain ⟨htok, htext, _, _, _, hemb, hids⟩ := filter_kept_some hfk
    rw [hout_i]
    refine ⟨htok, ?_, ?_, htext, rfl, hemb⟩
    · intro hne
      rcases hids with ⟨hemp, _⟩ | ⟨_, hp⟩
      · rw [hemp] at hne
        simp at hne
      · rw [hp]
    · intro hleneq
      have hkeep_lt : ∀ j ∈ keep_idx ((kept_steps steps).getD i default).tokens,
          j < ((kept_steps steps).getD i default).token_ids.length := by
        intro j hj
        rw [← hleneq]
        exact (keep_idx_mem hj).1
      show s'.tokens.length = s'.token_ids.length
      rcases hids with ⟨hemp, heqids⟩ | ⟨_, hp⟩
      · have : ((kept_steps steps).getD i default).token_ids = [] :=
          List.isEmpty_iff.mp hemp
        rw [htok, heqids, this]
        rw [this] at hleneq
        simp only [List.length_nil] at hleneq
        rw [filterMap_getElem_length (fun j hj => (keep_idx_mem hj).1)]
        rw [keep_idx_length]
        have : ((kept_steps steps).getD i default).tokens = [] :=
          List.length_eq_zero.mp hleneq
        rw [this]
        rfl
      · have hlen' := pySelect_length hp
        rw [htok, filterMap_getElem_length (fun j hj => (keep_idx_mem hj).1),
          ← hlen']

/-- C9: The Boundary Resolver's fallback chain.  The known user-turn
markers are tried in priority order and the first match in the
without-generation-prompt rendering wins; if no marker matches, the
offset of the raw user message content within the rendering is used; if
that also fails, the token-count boundary is 0 and no prompt tokens are
excluded from the displayed stream (`drop 0` leaves the prompt ids
untouched). -/
theorem boundary_resolver_fallback (tokCount : List Char → ℕ)
    (textWA prompt : List Char) (promptIds : List ℕ) :
    (∀ i, pyFind textWA
        "<|start_header_id|>user<|end_header_id|>".data = some i →
      headerStartPos textWA prompt = some i) ∧
    (pyFind textWA "<|start_header_id|>user<|end_header_id|>".data = none →
      ∀ i, pyFind textWA "<|im_start|>user".data = some i →
        headerStartPos textWA prompt = some i) ∧
    (pyFind textWA "<|start_header_id|>user<|end_header_id|>".data = none →
      pyFind textWA "<|im_start|>user".data = none →
      headerStartPos textWA prompt = pyFind textWA prompt) ∧
    (pyFind textWA "<|start_header_id|>user<|end_header_id|>".data = none →
      pyFind textWA "<|im_start|>user".data = none →
      pyFind textWA prompt = none →
      userMessageStartIdx tokCount textWA prompt = 0 ∧
      promptIds.drop (userMessageStartIdx tokCount textWA prompt) =
        promptIds) := by
  refine ⟨?_, ?_, ?_, ?_⟩
  · intro i h1
    unfold headerStartPos possibleHeaders
    rw [List.findSome?_cons]
    rw [h1]
  · intro h1 i h2
    unfold headerStartPos possibleHeaders
    rw [List.findSome?_cons, h1, List.findSome?_cons, h2]
  · intro h1 h2
    unfold headerStartPos possibleHeaders
    rw [List.findSome?_cons, h1, List.findSome?_cons, h2]
    rfl
  · intro h1 h2 h3
    have hh : headerStartPos textWA prompt = none := by
      unfold headerStartPos possibleHeaders
      rw [List.findSome?_cons, h1, List.findSome?_cons, h2]
      simpa using h3
    have hzero : userMessageStartIdx tokCount textWA prompt = 0 := by
      unfold userMessageStartIdx
      rw [hh]
    exact ⟨hzero, by rw [hzero]; exact List.drop_zero promptIds⟩

/-! ## Witnesses -/

/-- Witness for C2 at a one-token vocabulary, `K = 1`, τ = 1. -/
theorem sampler_selection_contract_witness :
    (0 : ℕ) < 1 ∧ ([(0 : ℝ)] ≠ []) ∧
    (genStepRecord (fun _ => "t") [(0 : ℝ)] 1 (some 1) 0 0 "" []
      []).selected_token.selection_method = "sampling" :=
  ⟨by decide, by simp,
    ((sampler_selection_contract (fun _ => "t") [(0 : ℝ)] 1 (some 1) 0 0 ""
      [] [] (by decide) (by simp)).2 1 rfl (by norm_num)).1⟩

/-- Witness for C3 on a one-token text with a one-entry vocabulary. -/
theorem training_loss_matches_logprob_witness :
    0 < (pyTrunc [5] none).length ∧
    ((process_training (fun _ _ => [(0 : ℝ)]) (fun _ => "x") [5]
        none).getD 0 default).loss =
      round4 (-(((process_training (fun _ _ => [(0 : ℝ)]) (fun _ => "x")
        [5] none).getD 0 default).target_logprob)) :=
  ⟨by decide,
    training_loss_matches_logprob (fun _ _ => [(0 : ℝ)]) (fun _ => "x") [5]
      none (fun _ => by simp) 0 (by decide)⟩

/-- Witness for C4 on a two-token text, at position 1. -/
theorem training_steps_alignment_witness :
    1 < (pyTrunc [3, 7] none).length ∧
    ((process_training (fun _ _ => [(0 : ℝ), 1]) (fun _ => "a") [3, 7]
        none).getD 1 default).input_token_ids = (pyTrunc [3, 7] none).take 1 :=
  ⟨by decide,
    ((training_steps_alignment (fun _ _ => [(0 : ℝ), 1]) (fun _ => "a")
      [3, 7] none).2 1 (by decide)).2.2.1⟩

/-- Witness for C5: an all-newline trace filters to zero steps, and a
mixed trace keeps exactly the non-newline step. -/
theorem filter_drops_and_reindexes_witness :
    ((∀ s ∈ [demoNL], is_newline_token s.selected_token.token = true) ∧
      filter_trace [demoNL] = some []) ∧
    (filter_trace [demoNL, demoOK] = some [demoOKFiltered] ∧
      [demoOKFiltered].length = (kept_steps [demoNL, demoOK]).length) :=
  ⟨⟨by decide, (filter_drops_and_reindexes [demoNL]).1 (by decide)⟩,
   ⟨by decide,
    ((filter_drops_and_reindexes [demoNL, demoOK]).2 [demoOKFiltered]
      (by decide)).1⟩⟩

/-- Witness for C8: re-filtering a filtered trace is the identity. -/
theorem filter_trace_idempotent_witness :
    filter_trace [demoNL, demoOK] = some [demoOKFiltered] ∧
    filter_trace [demoOKFiltered] = some [demoOKFiltered] :=
  ⟨by decide,
    @filter_trace_idempotent [demoNL, demoOK] [demoOKFiltered] (by decide)⟩

/-- Witness for C9: a rendering with no marker and no prompt occurrence
resolves to boundary 0 and excludes nothing. -/
theorem boundary_resolver_fallback_witness :
    pyFind "hello".data "<|start_header_id|>user<|end_header_id|>".data =
      none ∧
    pyFind "hello".data "<|im_start|>user".data = none ∧
    pyFind "hello".data "zq".data = none ∧
    (userMessageStartIdx (fun l => l.length) "hello".data "zq".data = 0 ∧
      ([4, 5] : List ℕ).drop
        (userMessageStartIdx (fun l => l.length) "hello".data "zq".data) =
        [4, 5]) :=
  ⟨by decide, by decide, by decide,
    (boundary_resolver_fallback (fun l => l.length) "hello".data "zq".data
      [4, 5]).2.2.2 (by decide) (by decide) (by decide)⟩

/-- Witness for C10: the untouched fields of the surviving demo step. -/
theorem filter_preserves_other_fields_witness :
    filter_trace [demoNL, demoOK] = some [demoOKFiltered] ∧
    0 < ([demoOKFiltered] : List VisStep).length ∧
    (([demoOKFiltered] : List VisStep).getD 0
        default).output_distribution =
      ((kept_steps [demoNL, demoOK]).getD 0 default).output_distribution :=
  ⟨by decide, by decide,
    ((filter_preserves_other_fields
      (show filter_trace [demoNL, demoOK] = some [demoOKFiltered] by
        decide)).2 0 (by decide)).1⟩

end ALLM
